import Mathlib

/-!
Shallow embedding of the coordination layer of the Chino-Kafuu voice-assistant
repository: the in-process short-term message cache, the short-term memory
buffer, the memory manager's compression step, the conversation summarizer,
the async event bus, the token router, and the dialog orchestrator's
concurrency discipline.  Definitions are transcribed from the Python source
(src/src/modules/memory, src/src/modules/dialog, src/src/core); theorems below
settle the specification claims against them.
-/

namespace ChinoKafuu

/-! ## MemoryCache (src/src/modules/memory/cache/memory_cache.py)

The in-process backend stores, per key, a list of serialized messages.
`pySlice` models Python's `l[s:e]` slicing for arbitrary integer bounds:
a negative index is offset by the length and clamped to 0, a positive index
is clamped to the length, and the result is the half-open range `[s, e)`.
-/

/-- Python list slicing `l[a:b]` with step 1. -/
def pySlice (l : List α) (a b : Int) : List α :=
  let n : Int := l.length
  let s : Int := if a < 0 then max (n + a) 0 else min a n
  let e : Int := if b < 0 then max (n + b) 0 else min b n
  (l.take e.toNat).drop s.toNat

/-- Model of `MemoryCache._resolve_range`: resolve a Redis-style inclusive range to
Python slice indices.  Transcribed verbatim: a negative `start` is offset by
the length and clamped at 0; a negative `end` is offset by the length (with
no clamp); the returned upper bound is `end + 1`. -/
def resolve_range (length : Nat) (start end_ : Int) : Int × Int :=
  let s : Int := if start < 0 then max ((length : Int) + start) 0 else start
  let e : Int := if end_ < 0 then (length : Int) + end_ else end_
  (s, e + 1)

/-- The cache: a map from keys to message lists, as an association list. -/
abbrev Cache := List (String × List String)

/-- Model of `MemoryCache.__init__`: empty storage. -/
def Cache.empty : Cache := []

/-- Lookup of `self._storage[key]`, `None` when the key is absent. -/
def Cache.find? (c : Cache) (key : String) : Option (List String) :=
  match c with
  | [] => none
  | (k, v) :: rest => if k = key then some v else Cache.find? rest key

/-- Store `self._storage[key] = v`. -/
def Cache.set (c : Cache) (key : String) (v : List String) : Cache :=
  match c with
  | [] => [(key, v)]
  | (k, w) :: rest =>
      if k = key then (k, v) :: rest else (k, w) :: Cache.set rest key v

/-- Model of `MemoryCache.add_message`: append a message to the key's list, creating
the list when absent. -/
def Cache.add_message (c : Cache) (key : String) (message : String) : Cache :=
  match c.find? key with
  | none => c.set key [message]
  | some msgs => c.set key (msgs ++ [message])

/-- Model of `MemoryCache.get_messages`: `[]` for a missing key, otherwise the Python
slice of the stored list at the resolved range. -/
def Cache.get_messages (c : Cache) (key : String) (start end_ : Int) : List String :=
  match c.find? key with
  | none => []
  | some msgs =>
      let r := resolve_range msgs.length start end_
      pySlice msgs r.1 r.2

/-- Model of `MemoryCache.trim`: replace the stored list by the slice at the resolved
range; no effect for a missing key. -/
def Cache.trim (c : Cache) (key : String) (start end_ : Int) : Cache :=
  match c.find? key with
  | none => c
  | some msgs =>
      let r := resolve_range msgs.length start end_
      c.set key (pySlice msgs r.1 r.2)

/-- Redis `LRANGE key start end` on a stored list, modelled from the spec's
words: inclusive bounds, negative indices count from the end, `start`
clamped at the head, `end` clamped at the last element, and an empty result
whenever the resolved `start` exceeds the resolved `end`. -/
def redisLrange (l : List α) (start end_ : Int) : List α :=
  let n : Int := l.length
  let s : Int := if start < 0 then max (n + start) 0 else start
  let e : Int := min (if end_ < 0 then n + end_ else end_) (n - 1)
  if s > e then [] else (l.take (e + 1).toNat).drop s.toNat

example : Cache.get_messages [("k", ["a", "b", "c"])] "k" 0 (-1) = ["a", "b", "c"] := by decide
example : Cache.get_messages [("k", ["a", "b", "c"])] "k" 0 (-5) = ["a", "b"] := by decide
example : redisLrange ["a", "b", "c"] 0 (-5) = ([] : List String) := by decide
example : Cache.get_messages [("k", ["a", "b", "c"])] "k" (-10) 1 = ["a", "b"] := by decide
example : redisLrange ["a", "b", "c"] (-10) 1 = ["a", "b"] := by decide

/-! ## ShortTermMemory (src/src/modules/memory/short_term.py)

`add_user_message` and `add_chino_response` both serialize an entry to JSON,
append it with `storage.add_message(key, json)` and then call
`storage.trim(key, -max_size, -1)`.  The serialized entry is treated as an
opaque string here; the two methods have the same storage effect. -/

/-- The common storage effect of `ShortTermMemory.add_user_message` and
`ShortTermMemory.add_chino_response` with the in-process cache backend:
append the serialized entry, then trim to the last `max_size` entries. -/
def ShortTerm.add_entry (max_size : Nat) (c : Cache) (key entry : String) : Cache :=
  (c.add_message key entry).trim key (-(max_size : Int)) (-1)

/-- A whole conversation appended turn by turn. -/
def ShortTerm.add_all (max_size : Nat) (c : Cache) (key : String)
    (entries : List String) : Cache :=
  entries.foldl (fun acc e => ShortTerm.add_entry max_size acc key e) c

/-! ## ConversationSummarizer (src/src/modules/memory/summarizer.py)

Buffer entries are dicts with a single top-level key `"user"` or
`"chino-kafuu"` (the shapes produced by `ShortTermMemory`); any other dict is
skipped by both `_format_messages` and `_fallback_summary`. -/

/-- A decoded short-term buffer entry. -/
inductive Turn
  | user (message : String) (emotion : String)
  | chino (text_display : String) (emotion : String)
  | other
deriving DecidableEq, Repr

/-- Model of `ConversationSummarizer._format_messages`. -/
def format_messages (messages : List Turn) : String :=
  String.intercalate ("\n") (messages.filterMap (fun m =>
    match m with
    | Turn.user text emotion => some ("User [" ++ emotion ++ "]: " ++ text)
    | Turn.chino text emotion => some ("Assistant [" ++ emotion ++ "]: " ++ text)
    | Turn.other => none))

/-- Number of entries collected into `user_messages` by `_fallback_summary`. -/
def count_user (messages : List Turn) : Nat :=
  (messages.filter (fun m => match m with | Turn.user _ _ => true | _ => false)).length

/-- Number of entries collected into `chino_message` by `_fallback_summary`. -/
def count_chino (messages : List Turn) : Nat :=
  (messages.filter (fun m => match m with | Turn.chino _ _ => true | _ => false)).length

/-- Model of `ConversationSummarizer._fallback_summary`. -/
def fallback_summary (messages : List Turn) : String :=
  "Conversation with " ++ toString (count_user messages) ++
    " user messages and " ++ toString (count_chino messages) ++
    " assistant responses."

/-- Model of `ConversationSummarizer.summarize_conversation`: the language-model call
`self.llm.generate` may raise (modelled as `Except Unit String`); the `except`
clause returns the fallback summary.  On success the stripped summary text is
returned. -/
def summarize_conversation (generate : String → Except Unit String)
    (messages : List Turn) : String :=
  match generate (format_messages messages) with
  | Except.ok summary => summary.trim
  | Except.error _ => fallback_summary messages

/-! ## MemoryManager._check_and_compress (src/src/modules/memory/memory_manager.py)

The compression step reads the whole buffer, and when its length reaches the
threshold it summarizes, persists one summary row via
`LongTermMemory.add_summary` (which stores the message count of the batch and
may raise), and then executes `self.short_term.storage.trim(self.short_term.storage_key, len(messages), -1)`.
`ShortTermMemory` defines no attribute `storage_key` (src/src/modules/memory/short_term.py
has only `key_prefix` and `_get_session_key`), so in Python this attribute
access raises `AttributeError` before the trim can run; the surrounding
`except Exception` swallows it.  The model makes that failure explicit: the
trim step is unreachable, so the buffer is returned unchanged. -/

/-- One persisted row of `conversation_summaries` (`LongTermMemory.add_summary`):
the summary text, the compressed batch, and its `message_count`. -/
structure SummaryRow where
  summary : String
  original_messages : List Turn
  message_count : Nat
deriving DecidableEq, Repr

/-- The state touched by `MemoryManager._check_and_compress`: the decoded
short-term buffer and the long-term summary rows. -/
structure MMState where
  buffer : List Turn
  summaries : List SummaryRow
deriving DecidableEq, Repr

/-- Model of `MemoryManager._check_and_compress`, transcribed step by step.
`add_summary_ok` models whether `LongTermMemory.add_summary` succeeds (it
re-raises database errors).  When it raises, the handler leaves the state
unchanged.  When it succeeds, the row is persisted and the next statement,
the attribute access `self.short_term.storage_key`, raises `AttributeError`
(the attribute does not exist), which the handler swallows: the buffer is
never trimmed. -/
def check_and_compress (generate : String → Except Unit String)
    (compress_threshold : Nat) (add_summary_ok : Bool) (s : MMState) : MMState :=
  let messages := s.buffer
  if messages.length < compress_threshold then s
  else if add_summary_ok then
    { s with
      summaries := s.summaries ++
        [{ summary := summarize_conversation generate messages
           original_messages := messages
           message_count := messages.length }] }
  else s

/-! ## EventBus (src/src/core/event_bus.py)

`Priority` is an `IntEnum` (HIGH = 0, NORMAL = 1, LOW = 2) and
`@dataclass(order=True)` makes a `Subscription` compare by `priority` alone
(`handler` and `owner` carry `compare=False`).  Python's `list.sort()` is a
stable sort; over a key with three values any stable sort produces the same
output, modelled here by a left-fold insertion that places a new element after
every element whose priority is less than or equal to its own. -/

inductive Priority
  | high
  | normal
  | low
deriving DecidableEq, Repr

/-- The `IntEnum` value of a priority. -/
def Priority.val : Priority → Nat
  | Priority.high => 0
  | Priority.normal => 1
  | Priority.low => 2

/-- A `Subscription`: comparison key `priority`, plus the handler identity. -/
structure Sub where
  priority : Priority
  id : Nat
deriving DecidableEq, Repr

/-- Insert `x` after every element with priority less than or equal to its own
(the position a stable sort gives an element appended at the end). -/
def insertSub (x : Sub) : List Sub → List Sub
  | [] => [x]
  | y :: ys =>
      if x.priority.val < y.priority.val then x :: y :: ys
      else y :: insertSub x ys

/-- Python's stable `list.sort()` on subscriptions, as a left fold of stable
insertions. -/
def pySort (l : List Sub) : List Sub :=
  l.foldl (fun acc x => insertSub x acc) []

/-- Model of `self._subscribers`: a dict from event name to its subscription list. -/
abbrev Subscribers := List (String × List Sub)

/-- Dict lookup with `[]` default (`self._subscribers.get(event, [])`). -/
def Subscribers.get (b : Subscribers) (event : String) : List Sub :=
  match b with
  | [] => []
  | (k, v) :: rest => if k = event then v else Subscribers.get rest event

/-- Dict store `self._subscribers[event] = l`. -/
def Subscribers.set (b : Subscribers) (event : String) (l : List Sub) : Subscribers :=
  match b with
  | [] => [(event, l)]
  | (k, v) :: rest =>
      if k = event then (k, l) :: rest else (k, v) :: Subscribers.set rest event l

/-- Model of `EventBus.subscribe`: append the new subscription to the event's list and
re-sort that list (stable, by priority). -/
def subscribe (b : Subscribers) (event : String) (s : Sub) : Subscribers :=
  b.set event (pySort (b.get event ++ [s]))

/-- A bus built by a sequence of `subscribe` calls on a fresh `EventBus`. -/
def buildBus (regs : List (String × Sub)) : Subscribers :=
  regs.foldl (fun b r => subscribe b r.1 r.2) []

/-- Model of `EventBus._get_handlers`: the event's list, extended with the wildcard
list and re-sorted when the wildcard list is nonempty. -/
def get_handlers (b : Subscribers) (event : String) : List Sub :=
  let handlers := b.get event
  let wildcard := b.get ("*")
  if wildcard.isEmpty then handlers else pySort (handlers ++ wildcard)

/-- The subscriptions of one registration sequence made for one event, in
registration order. -/
def regsFor (regs : List (String × Sub)) (event : String) : List Sub :=
  (regs.filter (fun r => r.1 == event)).map (fun r => r.2)

/-- The subscriptions of one priority band, in their given order. -/
def prioFilter (p : Priority) (l : List Sub) : List Sub :=
  l.filter (fun s => s.priority == p)

/-- A subscription list arranged into its three priority bands, each band in
the order of the original list: the outcome of any stable sort by
priority. -/
def bucket (l : List Sub) : List Sub :=
  prioFilter Priority.high l ++ prioFilter Priority.normal l ++ prioFilter Priority.low l

/-- One entry of `self._history`: event name, `time.time()` timestamp, and
the payload's type name. -/
structure HEntry where
  event : String
  timestamp : Nat
  data_type : String
deriving DecidableEq, Repr

/-- Model of `self._max_history`. -/
def max_history : Nat := 100

/-- The last `n` elements of a list (`l[-n:]` for `n ≥ 1`). -/
def lastN (n : Nat) (l : List α) : List α :=
  l.drop (l.length - n)

/-- Model of `EventBus._record_history`: append the entry, then cut the history down
to its last `_max_history` elements when it got longer than that. -/
def record_history (history : List HEntry) (e : HEntry) : List HEntry :=
  let h := history ++ [e]
  if max_history < h.length then lastN max_history h else h

/-- Model of `EventBus.get_history`: Python `self._history[-limit:]`, which is the
whole history when `limit = 0`. -/
def get_history (history : List HEntry) (limit : Nat) : List HEntry :=
  if limit = 0 then history else lastN limit history

/-- Mutable state of one `EventBus`. -/
structure BusState where
  subs : Subscribers
  history : List HEntry

/-- Result of one `publish` call: the per-handler invocation outcomes in
start order (`true` = handler returned, `false` = handler raised and
`_safe_call` caught and logged the exception) and the returned count. -/
structure PublishResult where
  invoked : List (Nat × Bool)
  count : Nat
deriving DecidableEq, Repr

/-- Model of `EventBus.publish`: without handlers it returns 0 at once (recording no
history); otherwise it records one history entry, runs every merged handler
through `_safe_call` (`beh h = false` models the handler raising; the
exception is contained), and returns the number of handlers. -/
def publish (st : BusState) (beh : Nat → Bool) (event : String)
    (timestamp : Nat) (data_type : String) : BusState × PublishResult :=
  let handlers := get_handlers st.subs event
  if handlers.isEmpty then (st, { invoked := [], count := 0 })
  else
    ({ st with
        history := record_history st.history
          { event := event, timestamp := timestamp, data_type := data_type } },
     { invoked := handlers.map (fun s => (s.id, beh s.id))
       count := handlers.length })

/-- A sequence of `publish` calls (event, timestamp, payload type name). -/
def publishSeq (st : BusState) (beh : Nat → Bool)
    (pubs : List (String × Nat × String)) : BusState :=
  pubs.foldl (fun acc p => (publish acc beh p.1 p.2.1 p.2.2).1) st

/-! ## TokenRouter (src/src/modules/dialog/token_router.py)

A routed reply gives every sentence a dense index `0 ≤ i < total`; sentence
objects are shared between `_all_sentences`, the per-slot FIFOs and
`_completed`, so a sentence's mutable `status` is modelled as a per-index
entry of the router state.  `_completed` is a dict keyed by index, kept here
as its insertion-ordered key list. -/

inductive SStatus
  | pending
  | processing
  | completed
deriving DecidableEq, Repr

/-- The mutable state of one `TokenRouter` after `route_sentences`. -/
structure RouterState (α : Type) where
  num_slots : Nat
  sentences : List α
  status : List SStatus
  queues : List (List Nat)
  currents : List (Option Nat)
  completed : List Nat
  finished : Bool
deriving DecidableEq, Repr

/-- Model of `TokenRouter.route_sentences`: reset, label the sentences `0..N-1` and
enqueue index `i` on slot `i % num_slots`; FIFO order inside a slot is
increasing index order. -/
def route (num_slots : Nat) (sentences : List α) : RouterState α :=
  { num_slots := num_slots
    sentences := sentences
    status := List.replicate sentences.length SStatus.pending
    queues := (List.range num_slots).map (fun s =>
      (List.range sentences.length).filter (fun i => i % num_slots == s))
    currents := List.replicate num_slots none
    completed := []
    finished := false }

/-- Model of `SentenceFIFO.dequeue` via `TokenRouter.get_next`: pop the slot's queue
head, mark it `PROCESSING` and make it the slot's current sentence; on an
empty queue (or an out-of-range slot) nothing changes and `None` is
returned. -/
def dequeue (st : RouterState α) (slot : Nat) : RouterState α × Option Nat :=
  match st.queues.getD slot [] with
  | [] => (st, none)
  | i :: rest =>
      ({ st with
          status := st.status.set i SStatus.processing
          queues := st.queues.set slot rest
          currents := st.currents.set slot (some i) }, some i)

/-- Model of `SentenceFIFO.complete_current`: when the slot has a current sentence,
set that sentence's status to `COMPLETED` and clear the slot. -/
def complete_current (st : RouterState α) (slot : Nat) : RouterState α :=
  match st.currents.getD slot none with
  | none => st
  | some i =>
      { st with
          status := st.status.set i SStatus.completed
          currents := st.currents.set slot none }

/-- Model of `TokenRouter.is_all_completed`. -/
def is_all_completed (st : RouterState α) : Bool :=
  decide (0 < st.sentences.length) && st.completed.length == st.sentences.length

/-- Model of `TokenRouter.mark_completed`: reject an index outside `_all_sentences` or
a sentence whose status is already `COMPLETED`; otherwise run
`complete_current` on the slot `index % num_slots`, store the index in
`_completed`, and set the finished event when everything is completed. -/
def mark_completed (st : RouterState α) (i : Nat) : RouterState α × Bool :=
  if i < st.sentences.length then
    if st.status.getD i SStatus.pending = SStatus.completed then (st, false)
    else
      let st1 := complete_current st (i % st.num_slots)
      let completed1 := if i ∈ st1.completed then st1.completed else st1.completed ++ [i]
      let st2 := { st1 with completed := completed1 }
      ({ st2 with finished := if is_all_completed st2 then true else st2.finished }, true)
  else (st, false)

/-- Model of `TokenRouter.build_ordered_response`: the completed sentences sorted by
original index. -/
def build_ordered_response (st : RouterState α) : List α :=
  (List.insertionSort (· ≤ ·) st.completed).filterMap (fun i => st.sentences[i]?)

/-- One consumer step against the router: a slot dequeue or a completion
mark. -/
inductive ROp
  | deq (slot : Nat)
  | mark (i : Nat)
deriving DecidableEq, Repr

/-- Execute one step, dropping the immediate return value. -/
def rstep (st : RouterState α) : ROp → RouterState α
  | ROp.deq slot => (dequeue st slot).1
  | ROp.mark i => (mark_completed st i).1

/-- Execute a whole interleaving of dequeues and marks. -/
def runOps (st : RouterState α) (ops : List ROp) : RouterState α :=
  ops.foldl rstep st

/-- The marked indices of an interleaving, in order. -/
def marksOf (ops : List ROp) : List Nat :=
  ops.filterMap (fun o => match o with | ROp.mark i => some i | ROp.deq _ => none)

/-- Every `mark_completed` call of the interleaving returns `True`. -/
def allMarksOk (st : RouterState α) : List ROp → Bool
  | [] => true
  | ROp.deq slot :: rest => allMarksOk (dequeue st slot).1 rest
  | ROp.mark i :: rest =>
      let r := mark_completed st i
      r.2 && allMarksOk r.1 rest

/-- Router bookkeeping invariant: the completed set holds distinct in-range
indices, and the finished event is set exactly when the whole routed reply
is in the completed set. -/
def RInv (st : RouterState α) : Prop :=
  st.completed.Nodup ∧ (∀ j ∈ st.completed, j < st.sentences.length) ∧
    (st.finished = true ↔
      (0 < st.sentences.length ∧ st.completed.length = st.sentences.length))

/-! ## DialogOrchestrator concurrency (src/src/modules/dialog/orchestrator.py)

The orchestrator owns no lock.  `process_user_message` sets the plain
boolean `self.is_processing` without checking it, gathers context, calls the
model, saves the responses, and clears the flag in its `finally` block.
`auto_trigger_conversation` first checks the flag and returns `[]` at once
when a turn is in flight; otherwise it runs the same pipeline.  The two
coroutines are modelled as scripts executed step by step under an arbitrary
cooperative schedule (each step is an atomic segment between suspension
points); a schedule picks which invocation advances next. -/

/-- One atomic segment of an orchestrator coroutine. -/
inductive OAct
  | setFlag (b : Bool)
  | guard
  | retrieve
  | callModel
  | save
deriving DecidableEq, Repr

/-- An observable trace event, tagged by invocation. -/
inductive OEv
  | setI (b : Bool)
  | passedGuard
  | skipped
  | beganRetrieve
  | calledModel
  | saved
deriving DecidableEq, Repr

/-- Model of `DialogOrchestrator.process_user_message`: set `is_processing`, gather
context (mid-term summaries, relevant memories, conversation history), call
the language model, save/publish the reply, clear the flag. -/
def pumScript : List OAct :=
  [OAct.setFlag true, OAct.retrieve, OAct.callModel, OAct.save, OAct.setFlag false]

/-- Model of `DialogOrchestrator.auto_trigger_conversation`: check `is_processing`
first (returning `[]` when it is set), then run the same pipeline. -/
def autoScript : List OAct :=
  [OAct.guard, OAct.setFlag true, OAct.retrieve, OAct.callModel, OAct.save,
   OAct.setFlag false]

/-- Shared state of two concurrent orchestrator invocations: the
`is_processing` flag, each invocation's program counter, and the event
trace. -/
structure OState where
  flag : Bool
  pc0 : Nat
  pc1 : Nat
  trace : List (Nat × OEv)
deriving DecidableEq, Repr

/-- Effect of one segment: new flag, new program counter, trace event.  A
`guard` that observes the flag set jumps to the end of the script (the
early `return []`). -/
def oact (tid : Nat) (a : OAct) (flag : Bool) (pc len : Nat) :
    Bool × Nat × (Nat × OEv) :=
  match a with
  | OAct.setFlag b => (b, pc + 1, (tid, OEv.setI b))
  | OAct.guard =>
      if flag then (flag, len, (tid, OEv.skipped))
      else (flag, pc + 1, (tid, OEv.passedGuard))
  | OAct.retrieve => (flag, pc + 1, (tid, OEv.beganRetrieve))
  | OAct.callModel => (flag, pc + 1, (tid, OEv.calledModel))
  | OAct.save => (flag, pc + 1, (tid, OEv.saved))

/-- Let the chosen invocation run its next segment (`true` picks the second
script); a finished invocation contributes nothing. -/
def ostep (s0 s1 : List OAct) (st : OState) (second : Bool) : OState :=
  if second then
    match s1[st.pc1]? with
    | none => st
    | some a =>
        let r := oact 1 a st.flag st.pc1 s1.length
        { st with flag := r.1, pc1 := r.2.1, trace := st.trace ++ [r.2.2] }
  else
    match s0[st.pc0]? with
    | none => st
    | some a =>
        let r := oact 0 a st.flag st.pc0 s0.length
        { st with flag := r.1, pc0 := r.2.1, trace := st.trace ++ [r.2.2] }

/-- Run two concurrent invocations under a cooperative schedule, starting
idle. -/
def orun (s0 s1 : List OAct) (sched : List Bool) : OState :=
  sched.foldl (ostep s0 s1) { flag := false, pc0 := 0, pc1 := 0, trace := [] }

/-! ## Supporting lemmas -/

theorem lastN_snoc (n : Nat) (l : List α) (x : α) :
    lastN n (lastN n l ++ [x]) = lastN n (l ++ [x]) := by
  unfold lastN
  rw [List.drop_append_eq_append_drop, List.drop_append_eq_append_drop,
    List.drop_drop]
  simp only [List.length_append, List.length_drop, List.length_cons,
    List.length_nil]
  congr 2
  · omega
  · omega

theorem lastN_length_le (n : Nat) (l : List α) : (lastN n l).length ≤ n := by
  unfold lastN
  simp only [List.length_drop]
  omega

theorem lastN_of_length_le (n : Nat) (l : List α) (h : l.length ≤ n) :
    lastN n l = l := by
  unfold lastN
  have : l.length - n = 0 := by omega
  rw [this, List.drop_zero]

theorem record_history_lastN (X : List HEntry) (e : HEntry) :
    record_history (lastN max_history X) e = lastN max_history (X ++ [e]) := by
  unfold record_history
  by_cases h : max_history < (lastN max_history X ++ [e]).length
  · simp only [h, if_true]
    exact lastN_snoc _ _ _
  · simp only [h, if_false]
    have hlast : (lastN max_history X).length = X.length - (X.length - max_history) := by
      unfold lastN
      simp [List.length_drop]
    simp only [List.length_append, List.length_cons, List.length_nil] at h
    have hX : X.length + 1 ≤ max_history := by omega
    have hXe : (X ++ [e]).length ≤ max_history := by
      simp only [List.length_append, List.length_cons, List.length_nil]
      omega
    rw [lastN_of_length_le _ _ (by omega), lastN_of_length_le _ _ hXe]

theorem publish_subs (st : BusState) (beh : Nat → Bool) (event : String)
    (t : Nat) (d : String) : (publish st beh event t d).1.subs = st.subs := by
  unfold publish
  by_cases h : (get_handlers st.subs event).isEmpty <;> simp [h]

theorem publishSeq_history (beh : Nat → Bool) :
    ∀ (pubs : List (String × Nat × String)) (st : BusState) (X : List HEntry),
      st.history = lastN max_history X →
      (publishSeq st beh pubs).history =
        lastN max_history (X ++
          (pubs.filter (fun p => !(get_handlers st.subs p.1).isEmpty)).map
            (fun p => { event := p.1, timestamp := p.2.1, data_type := p.2.2 })) ∧
      (publishSeq st beh pubs).subs = st.subs := by
  intro pubs
  induction pubs with
  | nil => intro st X h; simp [publishSeq, h]
  | cons p rest ih =>
      intro st X h
      have hstep : publishSeq st beh (p :: rest) =
          publishSeq (publish st beh p.1 p.2.1 p.2.2).1 beh rest := by
        simp [publishSeq]
      by_cases hp : (get_handlers st.subs p.1).isEmpty
      · have hid : (publish st beh p.1 p.2.1 p.2.2).1 = st := by
          unfold publish
          simp [hp]
        rw [hstep, hid]
        have := ih st X h
        simp only [List.filter_cons, hp, Bool.not_true, if_neg (by decide : ¬ (false = true))]
        exact this
      · have hhist : (publish st beh p.1 p.2.1 p.2.2).1.history =
            lastN max_history (X ++ [{ event := p.1, timestamp := p.2.1, data_type := p.2.2 }]) := by
          unfold publish
          simp only [hp, Bool.false_eq_true, if_false, h]
          rw [record_history_lastN]
        have hsubs : (publish st beh p.1 p.2.1 p.2.2).1.subs = st.subs :=
          publish_subs st beh p.1 p.2.1 p.2.2
        rw [hstep]
        obtain ⟨h1, h2⟩ := ih _ _ hhist
        rw [hsubs] at h1
        constructor
        · rw [h1]
          have hcond : (!(get_handlers st.subs p.1).isEmpty) = true := by
            simp only [Bool.not_eq_true']
            exact Bool.eq_false_iff.mpr hp
          simp [List.filter_cons, hcond, List.append_assoc]
        · rw [h2, hsubs]

theorem bucket_def (l : List Sub) :
    bucket l = prioFilter Priority.high l ++ prioFilter Priority.normal l ++
      prioFilter Priority.low l := rfl

theorem prioFilter_append (p : Priority) (a b : List Sub) :
    prioFilter p (a ++ b) = prioFilter p a ++ prioFilter p b := by
  unfold prioFilter
  exact List.filter_append ..

theorem mem_prioFilter_val (p : Priority) (l : List Sub) (s : Sub)
    (h : s ∈ prioFilter p l) : s.priority = p := by
  unfold prioFilter at h
  have := List.of_mem_filter h
  simpa using this

theorem prioFilter_idem (p : Priority) (l : List Sub) :
    prioFilter p (prioFilter p l) = prioFilter p l := by
  unfold prioFilter
  rw [List.filter_filter]
  simp

theorem prioFilter_ne (p q : Priority) (h : p ≠ q) (l : List Sub) :
    prioFilter p (prioFilter q l) = [] := by
  apply List.filter_eq_nil_iff.mpr
  intro a ha
  have := mem_prioFilter_val q l a ha
  simp [this]
  exact fun hqp => h hqp.symm

theorem prioFilter_bucket (p : Priority) (l : List Sub) :
    prioFilter p (bucket l) = prioFilter p l := by
  rw [bucket_def, prioFilter_append, prioFilter_append]
  cases p with
  | high =>
      rw [prioFilter_idem, prioFilter_ne _ _ (by decide), prioFilter_ne _ _ (by decide)]
      simp
  | normal =>
      rw [prioFilter_idem, prioFilter_ne _ _ (by decide), prioFilter_ne _ _ (by decide)]
      simp
  | low =>
      rw [prioFilter_idem, prioFilter_ne _ _ (by decide), prioFilter_ne _ _ (by decide)]
      simp

theorem bucket_absorb (u v : List Sub) : bucket (bucket u ++ v) = bucket (u ++ v) := by
  have h : ∀ p, prioFilter p (bucket u ++ v) = prioFilter p (u ++ v) := by
    intro p
    rw [prioFilter_append, prioFilter_bucket, ← prioFilter_append]
  rw [bucket_def (bucket u ++ v), h, h, h, ← bucket_def]

theorem insertSub_skip (x : Sub) (A B : List Sub)
    (hA : ∀ a ∈ A, a.priority.val ≤ x.priority.val) :
    insertSub x (A ++ B) = A ++ insertSub x B := by
  induction A with
  | nil => simp
  | cons a A ih =>
      have ha := hA a (by simp)
      have hlt : ¬ (x.priority.val < a.priority.val) := by omega
      simp only [List.cons_append, insertSub, if_neg hlt]
      exact congrArg (a :: ·) (ih (fun b hb => hA b (by simp [hb])))

theorem insertSub_front (x : Sub) (B : List Sub)
    (hB : ∀ b ∈ B, x.priority.val < b.priority.val) :
    insertSub x B = x :: B := by
  cases B with
  | nil => rfl
  | cons b B =>
      have := hB b (by simp)
      simp only [insertSub, if_pos this]

theorem pySort_snoc (l : List Sub) (x : Sub) :
    pySort (l ++ [x]) = insertSub x (pySort l) := by
  unfold pySort
  rw [List.foldl_append]
  rfl

theorem prioFilter_singleton (p : Priority) (x : Sub) :
    prioFilter p [x] = if x.priority = p then [x] else [] := by
  unfold prioFilter
  by_cases h : x.priority = p
  · have hb : (x.priority == p) = true := by simp [h]
    simp [List.filter, hb, h]
  · have hb : (x.priority == p) = false := by simp [h]
    simp [List.filter, hb, h]

theorem insertSub_bucket (x : Sub) (l : List Sub) :
    insertSub x (bucket l) = bucket (l ++ [x]) := by
  have hhigh : ∀ a ∈ prioFilter Priority.high l, a.priority.val = 0 := by
    intro a ha; rw [mem_prioFilter_val _ _ _ ha]; decide
  have hnorm : ∀ a ∈ prioFilter Priority.normal l, a.priority.val = 1 := by
    intro a ha; rw [mem_prioFilter_val _ _ _ ha]; decide
  have hlow : ∀ a ∈ prioFilter Priority.low l, a.priority.val = 2 := by
    intro a ha; rw [mem_prioFilter_val _ _ _ ha]; decide
  rw [bucket_def l, bucket_def (l ++ [x])]
  rw [prioFilter_append, prioFilter_append, prioFilter_append,
    prioFilter_singleton, prioFilter_singleton, prioFilter_singleton]
  cases hx : x.priority with
  | high =>
      have h1 : insertSub x ((prioFilter Priority.high l ++ prioFilter Priority.normal l) ++
          prioFilter Priority.low l) = insertSub x (prioFilter Priority.high l ++
          (prioFilter Priority.normal l ++ prioFilter Priority.low l)) := by
        rw [List.append_assoc]
      rw [h1, insertSub_skip x _ _ (by intro a ha; rw [hhigh a ha, hx]; decide),
        insertSub_front x _ (by
          intro b hb
          rcases List.mem_append.mp hb with h | h
          · rw [hnorm b h, hx]; decide
          · rw [hlow b h, hx]; decide)]
      simp [hx]
  | normal =>
      rw [insertSub_skip x _ _ (by
          intro a ha
          rcases List.mem_append.mp ha with h | h
          · rw [hhigh a h, hx]; decide
          · rw [hnorm a h, hx]; decide),
        insertSub_front x _ (by intro b hb; rw [hlow b hb, hx]; decide)]
      simp [hx]
  | low =>
      have h1 : (prioFilter Priority.high l ++ prioFilter Priority.normal l) ++
          prioFilter Priority.low l = ((prioFilter Priority.high l ++
          prioFilter Priority.normal l) ++ prioFilter Priority.low l) ++ [] := by
        simp
      rw [h1, insertSub_skip x _ _ (by
          intro a ha
          rcases List.mem_append.mp ha with h | h
          · rcases List.mem_append.mp h with h2 | h2
            · rw [hhigh a h2, hx]; decide
            · rw [hnorm a h2, hx]; decide
          · rw [hlow a h, hx]; decide)]
      simp [hx, insertSub]

theorem pySort_eq_bucket (l : List Sub) : pySort l = bucket l := by
  induction l using List.reverseRecOn with
  | nil => rfl
  | append_singleton l x ih => rw [pySort_snoc, ih, insertSub_bucket]

theorem Subscribers.get_nil (x : String) : Subscribers.get [] x = [] := rfl

theorem Subscribers.get_cons (k : String) (v : List Sub) (rest : Subscribers)
    (x : String) :
    Subscribers.get ((k, v) :: rest) x = if k = x then v else Subscribers.get rest x := rfl

theorem Subscribers.set_nil (e : String) (l : List Sub) :
    Subscribers.set [] e l = [(e, l)] := rfl

theorem Subscribers.set_cons (k : String) (v : List Sub) (rest : Subscribers)
    (e : String) (l : List Sub) :
    Subscribers.set ((k, v) :: rest) e l =
      if k = e then (k, l) :: rest else (k, v) :: Subscribers.set rest e l := rfl

theorem Subscribers.get_set (b : Subscribers) (e : String) (l : List Sub) (x : String) :
    (Subscribers.get (Subscribers.set b e l) x) = if x = e then l else b.get x := by
  induction b with
  | nil =>
      rw [Subscribers.set_nil, Subscribers.get_cons]
      by_cases h : e = x
      · rw [if_pos h, if_pos h.symm]
      · rw [if_neg h, if_neg (fun hh => h hh.symm)]
  | cons kv rest ih =>
      obtain ⟨k, v⟩ := kv
      rw [Subscribers.set_cons]
      by_cases h1 : k = e
      · rw [if_pos h1, Subscribers.get_cons, Subscribers.get_cons]
        subst h1
        by_cases h2 : k = x
        · rw [if_pos h2, if_pos h2.symm]
        · rw [if_neg h2, if_neg (fun hh => h2 hh.symm), if_neg h2]
      · rw [if_neg h1, Subscribers.get_cons, Subscribers.get_cons]
        by_cases h2 : k = x
        · rw [if_pos h2, if_pos h2, if_neg (fun hh => h1 (h2.trans hh))]
        · rw [if_neg h2, if_neg h2, ih]

theorem buildBus_snoc (regs : List (String × Sub)) (r : String × Sub) :
    buildBus (regs ++ [r]) = subscribe (buildBus regs) r.1 r.2 := by
  unfold buildBus
  rw [List.foldl_append]
  rfl

theorem regsFor_snoc (regs : List (String × Sub)) (r : String × Sub) (e : String) :
    regsFor (regs ++ [r]) e = regsFor regs e ++ (if r.1 = e then [r.2] else []) := by
  unfold regsFor
  rw [List.filter_append]
  by_cases h : r.1 = e
  · simp [h]
  · simp [h]

theorem buildBus_get (regs : List (String × Sub)) :
    ∀ e, (buildBus regs).get e = bucket (regsFor regs e) := by
  induction regs using List.reverseRecOn with
  | nil =>
      intro e
      simp [buildBus, regsFor, bucket_def, prioFilter, Subscribers.get]
  | append_singleton regs r ih =>
      intro e
      rw [buildBus_snoc]
      unfold subscribe
      rw [Subscribers.get_set, regsFor_snoc]
      by_cases h : e = r.1
      · rw [if_pos h, ih r.1, pySort_eq_bucket, bucket_absorb, h]
        rw [if_pos rfl]
      · rw [if_neg h, ih e, if_neg (fun hh => h hh.symm)]
        simp

theorem Cache.find_set_self (c : Cache) (key : String) (v : List String) :
    (c.set key v).find? key = some v := by
  induction c with
  | nil => simp [Cache.set, Cache.find?]
  | cons kv rest ih =>
      obtain ⟨k, w⟩ := kv
      unfold Cache.set
      by_cases h : k = key
      · simp [h, Cache.find?]
      · simp only [h, if_false]
        unfold Cache.find?
        simp [h, ih]

theorem Cache.find_add_message (c : Cache) (key m : String) :
    (c.add_message key m).find? key = some (((c.find? key).getD []) ++ [m]) := by
  unfold Cache.add_message
  cases h : c.find? key with
  | none => simp [h, Cache.find_set_self]
  | some msgs => simp [h, Cache.find_set_self]

theorem trim_slice_last (msgs : List String) (k : Nat) (hk : 1 ≤ k) :
    pySlice msgs (resolve_range msgs.length (-(k : Int)) (-1)).1
      (resolve_range msgs.length (-(k : Int)) (-1)).2 =
      lastN k msgs := by
  unfold resolve_range pySlice lastN
  have hneg : (-(k : Int)) < 0 := by omega
  have hone : ((-1 : Int)) < 0 := by omega
  simp only [hneg, if_true, hone]
  have hs : ¬ (max ((msgs.length : Int) + -(k : Int)) 0 < 0) := by
    have := le_max_right ((msgs.length : Int) + -(k : Int)) 0
    omega
  have hb : ¬ ((msgs.length : Int) + -1 + 1 < 0) := by omega
  simp only [hs, if_false, hb]
  have h1 : min (max ((msgs.length : Int) + -(k : Int)) 0) (msgs.length : Int) =
      max ((msgs.length : Int) + -(k : Int)) 0 := by
    rcases le_or_lt (k : Int) (msgs.length : Int) with h | h
    · rw [min_eq_left]
      rcases max_cases ((msgs.length : Int) + -(k : Int)) 0 with ⟨he, _⟩ | ⟨he, _⟩ <;> omega
    · rw [min_eq_left]
      rcases max_cases ((msgs.length : Int) + -(k : Int)) 0 with ⟨he, _⟩ | ⟨he, _⟩ <;> omega
  have h2 : min ((msgs.length : Int) + -1 + 1) (msgs.length : Int) = (msgs.length : Int) := by
    omega
  rw [h1, h2]
  have h3 : ((msgs.length : Int)).toNat = msgs.length := by omega
  have h4 : (max ((msgs.length : Int) + -(k : Int)) 0).toNat = msgs.length - k := by
    rcases max_cases ((msgs.length : Int) + -(k : Int)) 0 with ⟨he, hle⟩ | ⟨he, hle⟩ <;> omega
  rw [h3, h4, List.take_length]

theorem add_entry_stored (k : Nat) (hk : 1 ≤ k) (c : Cache) (key m : String) :
    ((ShortTerm.add_entry k c key m).find? key).getD [] =
      lastN k (((c.find? key).getD []) ++ [m]) := by
  unfold ShortTerm.add_entry Cache.trim
  rw [Cache.find_add_message]
  simp only []
  rw [Cache.find_set_self]
  simp only [Option.getD_some]
  rw [trim_slice_last _ _ hk]

theorem add_all_stored (k : Nat) (hk : 1 ≤ k) (key : String) :
    ∀ (entries : List String) (c : Cache) (acc : List String),
      ((c.find? key).getD []) = lastN k acc →
      ((ShortTerm.add_all k c key entries).find? key).getD [] =
        lastN k (acc ++ entries) := by
  intro entries
  induction entries with
  | nil => intro c acc h; simpa [ShortTerm.add_all] using h
  | cons e es ih =>
      intro c acc h
      have step : ((ShortTerm.add_entry k c key e).find? key).getD [] =
          lastN k (acc ++ [e]) := by
        rw [add_entry_stored k hk, h, lastN_snoc]
      have : ShortTerm.add_all k c key (e :: es) =
          ShortTerm.add_all k (ShortTerm.add_entry k c key e) key es := by
        simp [ShortTerm.add_all]
      rw [this, ih _ _ step]
      simp

theorem complete_current_parts (st : RouterState α) (s : Nat) :
    (complete_current st s).completed = st.completed ∧
    (complete_current st s).sentences = st.sentences ∧
    (complete_current st s).finished = st.finished := by
  unfold complete_current
  cases st.currents.getD s none with
  | none => exact ⟨rfl, rfl, rfl⟩
  | some i => exact ⟨rfl, rfl, rfl⟩

theorem dequeue_parts (st : RouterState α) (s : Nat) :
    (dequeue st s).1.completed = st.completed ∧
    (dequeue st s).1.sentences = st.sentences ∧
    (dequeue st s).1.finished = st.finished := by
  unfold dequeue
  cases st.queues.getD s [] with
  | nil => exact ⟨rfl, rfl, rfl⟩
  | cons i rest => exact ⟨rfl, rfl, rfl⟩

theorem mark_completed_sentences (st : RouterState α) (i : Nat) :
    (mark_completed st i).1.sentences = st.sentences := by
  unfold mark_completed
  by_cases h1 : i < st.sentences.length
  · rw [if_pos h1]
    by_cases h2 : st.status.getD i SStatus.pending = SStatus.completed
    · rw [if_pos h2]
    · rw [if_neg h2]
      exact (complete_current_parts st (i % st.num_slots)).2.1
  · rw [if_neg h1]

theorem rstep_sentences (st : RouterState α) (op : ROp) :
    (rstep st op).sentences = st.sentences := by
  cases op with
  | deq s => exact (dequeue_parts st s).2.1
  | mark i => exact mark_completed_sentences st i

theorem runOps_sentences (ops : List ROp) :
    ∀ st : RouterState α, (runOps st ops).sentences = st.sentences := by
  induction ops with
  | nil => intro st; rfl
  | cons op rest ih =>
      intro st
      have : runOps st (op :: rest) = runOps (rstep st op) rest := by
        simp [runOps]
      rw [this, ih (rstep st op), rstep_sentences]

theorem mark_true_guards (st : RouterState α) (i : Nat)
    (h : (mark_completed st i).2 = true) :
    i < st.sentences.length ∧
      st.status.getD i SStatus.pending ≠ SStatus.completed := by
  by_cases h1 : i < st.sentences.length
  · by_cases h2 : st.status.getD i SStatus.pending = SStatus.completed
    · unfold mark_completed at h
      rw [if_pos h1, if_pos h2] at h
      exact absurd h (by simp)
    · exact ⟨h1, h2⟩
  · unfold mark_completed at h
    rw [if_neg h1] at h
    exact absurd h (by simp)

theorem mark_fail_eq (st : RouterState α) (i : Nat)
    (h : ¬ i < st.sentences.length ∨
      st.status.getD i SStatus.pending = SStatus.completed) :
    mark_completed st i = (st, false) := by
  unfold mark_completed
  rcases h with h | h
  · rw [if_neg h]
  · by_cases h1 : i < st.sentences.length
    · rw [if_pos h1, if_pos h]
    · rw [if_neg h1]

theorem mark_success_parts (st : RouterState α) (i : Nat)
    (h1 : i < st.sentences.length)
    (h2 : st.status.getD i SStatus.pending ≠ SStatus.completed) :
    (mark_completed st i).2 = true ∧
    (mark_completed st i).1.completed =
      (if i ∈ st.completed then st.completed else st.completed ++ [i]) ∧
    (mark_completed st i).1.finished =
      (if (0 < st.sentences.length ∧
          (mark_completed st i).1.completed.length = st.sentences.length)
        then true else st.finished) := by
  obtain ⟨hcc, hcs, hcf⟩ := complete_current_parts st (i % st.num_slots)
  unfold mark_completed
  rw [if_pos h1, if_neg h2]
  dsimp only
  rw [hcc, hcf]
  refine ⟨rfl, rfl, ?_⟩
  simp only [is_all_completed, hcs, hcc]
  by_cases h4 : (0 < st.sentences.length ∧
      (if i ∈ st.completed then st.completed else st.completed ++ [i]).length =
        st.sentences.length)
  · rw [if_pos h4]
    have hbool : (decide (0 < st.sentences.length) &&
        (if i ∈ st.completed then st.completed else st.completed ++ [i]).length ==
          st.sentences.length) = true := by
      simp only [Bool.and_eq_true, decide_eq_true_eq, beq_iff_eq]
      exact h4
    rw [hbool, if_pos rfl]
  · rw [if_neg h4]
    have hbool : (decide (0 < st.sentences.length) &&
        (if i ∈ st.completed then st.completed else st.completed ++ [i]).length ==
          st.sentences.length) = false := by
      by_cases hx : (decide (0 < st.sentences.length) &&
          (if i ∈ st.completed then st.completed else st.completed ++ [i]).length ==
            st.sentences.length) = true
      · exfalso
        apply h4
        simpa only [Bool.and_eq_true, decide_eq_true_eq, beq_iff_eq] using hx
      · exact Bool.eq_false_iff.mpr hx
    rw [hbool]
    simp

theorem mark_mem_completed (st : RouterState α) (i : Nat) (j : Nat) :
    j ∈ (mark_completed st i).1.completed ↔
      j ∈ st.completed ∨ ((mark_completed st i).2 = true ∧ j = i) := by
  by_cases h1 : i < st.sentences.length
  · by_cases h2 : st.status.getD i SStatus.pending = SStatus.completed
    · rw [mark_fail_eq st i (Or.inr h2)]
      simp
    · obtain ⟨hm2, hmc, _⟩ := mark_success_parts st i h1 h2
      rw [hmc, hm2]
      by_cases h3 : i ∈ st.completed
      · rw [if_pos h3]
        constructor
        · exact fun hj => Or.inl hj
        · rintro (hj | ⟨_, rfl⟩)
          · exact hj
          · exact h3
      · rw [if_neg h3]
        simp [List.mem_append]
  · rw [mark_fail_eq st i (Or.inl h1)]
    simp

theorem route_completed (K : Nat) (l : List α) : (route K l).completed = [] := rfl

theorem route_sentences_eq (K : Nat) (l : List α) : (route K l).sentences = l := rfl

theorem completed_full (c : List Nat) (N : Nat) (hnd : c.Nodup)
    (hb : ∀ j ∈ c, j < N) (hlen : c.length = N) : ∀ j, j < N → j ∈ c := by
  intro j hj
  have hsub : c.toFinset ⊆ Finset.range N := by
    intro x hx
    rw [List.mem_toFinset] at hx
    exact Finset.mem_range.mpr (hb x hx)
  have hcard : c.toFinset.card = N := by
    rw [List.toFinset_card_of_nodup hnd, hlen]
  have heq : c.toFinset = Finset.range N :=
    Finset.eq_of_subset_of_card_le hsub (by rw [hcard, Finset.card_range])
  have hj2 : j ∈ c.toFinset := by
    rw [heq]
    exact Finset.mem_range.mpr hj
  exact List.mem_toFinset.mp hj2

theorem route_rinv (K : Nat) (l : List α) : RInv (route K l) := by
  unfold RInv
  rw [route_completed, route_sentences_eq]
  have hf : (route K l).finished = false := rfl
  rw [hf]
  refine ⟨List.nodup_nil, by simp, ?_⟩
  simp
  omega

theorem rstep_rinv (st : RouterState α) (op : ROp) (h : RInv st) :
    RInv (rstep st op) := by
  cases op with
  | deq s =>
      obtain ⟨hc, hs, hf⟩ := dequeue_parts st s
      unfold RInv at h ⊢
      rw [show rstep st (ROp.deq s) = (dequeue st s).1 from rfl, hc, hs, hf]
      exact h
  | mark i =>
      obtain ⟨hnd, hb, hfin⟩ := h
      show RInv (mark_completed st i).1
      by_cases h1 : i < st.sentences.length
      · by_cases h2 : st.status.getD i SStatus.pending = SStatus.completed
        · rw [mark_fail_eq st i (Or.inr h2)]
          exact ⟨hnd, hb, hfin⟩
        · obtain ⟨hm2, hmc, hmf⟩ := mark_success_parts st i h1 h2
          have hms := mark_completed_sentences st i
          refine ⟨?_, ?_, ?_⟩
          · rw [hmc]
            by_cases h3 : i ∈ st.completed
            · rw [if_pos h3]
              exact hnd
            · rw [if_neg h3]
              simp [List.nodup_append, hnd, h3]
          · intro j hj
            rw [hmc] at hj
            rw [hms]
            by_cases h3 : i ∈ st.completed
            · rw [if_pos h3] at hj
              exact hb j hj
            · rw [if_neg h3] at hj
              rcases List.mem_append.mp hj with hj | hj
              · exact hb j hj
              · rw [List.mem_singleton.mp hj]
                exact h1
          · rw [hmf, hms]
            by_cases h4 : (0 < st.sentences.length ∧
                (mark_completed st i).1.completed.length = st.sentences.length)
            · rw [if_pos h4]
              simp [h4.1, h4.2]
            · rw [if_neg h4]
              constructor
              · intro hft
                obtain ⟨hp, hl2⟩ := hfin.mp hft
                by_cases h3 : i ∈ st.completed
                · exfalso
                  apply h4
                  rw [hmc, if_pos h3]
                  exact ⟨hp, hl2⟩
                · exact absurd (completed_full st.completed st.sentences.length
                    hnd hb hl2 i h1) h3
              · rintro ⟨hp, hl2⟩
                exact absurd ⟨hp, hl2⟩ h4
      · rw [mark_fail_eq st i (Or.inl h1)]
        exact ⟨hnd, hb, hfin⟩

theorem runOps_rinv (ops : List ROp) :
    ∀ st : RouterState α, RInv st → RInv (runOps st ops) := by
  induction ops with
  | nil => intro st h; exact h
  | cons op rest ih =>
      intro st h
      have : runOps st (op :: rest) = runOps (rstep st op) rest := by
        simp [runOps]
      rw [this]
      exact ih _ (rstep_rinv st op h)

theorem marksOf_append (p q : List ROp) :
    marksOf (p ++ q) = marksOf p ++ marksOf q := by
  unfold marksOf
  exact List.filterMap_append _ _ _

theorem runOps_mem (ops : List ROp) :
    ∀ st : RouterState α, allMarksOk st ops = true →
      ∀ j, (j ∈ (runOps st ops).completed ↔ j ∈ st.completed ∨ j ∈ marksOf ops) := by
  induction ops with
  | nil =>
      intro st h j
      simp [runOps, marksOf]
  | cons op rest ih =>
      intro st h j
      cases op with
      | deq s =>
          have hall : allMarksOk (dequeue st s).1 rest = true := h
          have hrun : runOps st (ROp.deq s :: rest) = runOps (dequeue st s).1 rest := by
            simp [runOps, rstep]
          rw [hrun, ih _ hall j, (dequeue_parts st s).1]
          simp [marksOf]
      | mark i =>
          have hsplit : (mark_completed st i).2 = true ∧
              allMarksOk (mark_completed st i).1 rest = true := by
            have h2 : ((mark_completed st i).2 &&
                allMarksOk (mark_completed st i).1 rest) = true := h
            simpa only [Bool.and_eq_true] using h2
          have hrun : runOps st (ROp.mark i :: rest) =
              runOps (mark_completed st i).1 rest := by
            simp [runOps, rstep]
          rw [hrun, ih _ hsplit.2 j, mark_mem_completed]
          simp only [marksOf, List.filterMap_cons, hsplit.1, true_and,
            List.mem_cons]
          constructor
          · rintro ((hj | hj) | hj)
            · exact Or.inl hj
            · exact Or.inr (Or.inl hj)
            · exact Or.inr (Or.inr hj)
          · rintro (hj | hj | hj)
            · exact Or.inl (Or.inl hj)
            · exact Or.inl (Or.inr hj)
            · exact Or.inr hj

theorem allMarksOk_append (p q : List ROp) :
    ∀ st : RouterState α,
      allMarksOk st (p ++ q) = (allMarksOk st p && allMarksOk (runOps st p) q) := by
  induction p with
  | nil => intro st; simp [allMarksOk, runOps]
  | cons op rest ih =>
      intro st
      cases op with
      | deq s =>
          have h1 : allMarksOk st (ROp.deq s :: (rest ++ q)) =
              allMarksOk (dequeue st s).1 (rest ++ q) := rfl
          have h2 : allMarksOk st (ROp.deq s :: rest) =
              allMarksOk (dequeue st s).1 rest := rfl
          have h3 : runOps st (ROp.deq s :: rest) = runOps (dequeue st s).1 rest := by
            simp [runOps, rstep]
          rw [List.cons_append, h1, h2, h3, ih]
      | mark i =>
          have h1 : allMarksOk st (ROp.mark i :: (rest ++ q)) =
              ((mark_completed st i).2 &&
                allMarksOk (mark_completed st i).1 (rest ++ q)) := rfl
          have h2 : allMarksOk st (ROp.mark i :: rest) =
              ((mark_completed st i).2 && allMarksOk (mark_completed st i).1 rest) := rfl
          have h3 : runOps st (ROp.mark i :: rest) = runOps (mark_completed st i).1 rest := by
            simp [runOps, rstep]
          rw [List.cons_append, h1, h2, h3, ih, Bool.and_assoc]

theorem filterMap_range_get (l : List α) :
    (List.range l.length).filterMap (fun i => l[i]?) = l := by
  induction l using List.reverseRecOn with
  | nil => rfl
  | append_singleton l x ih =>
      have hlen : (l ++ [x]).length = l.length + 1 := by simp
      rw [hlen, List.range_succ, List.filterMap_append]
      have h1 : (List.range l.length).filterMap (fun i => (l ++ [x])[i]?) =
          (List.range l.length).filterMap (fun i => l[i]?) := by
        apply List.filterMap_congr
        intro a ha
        have hlt : a < l.length := List.mem_range.mp ha
        rw [List.getElem?_append, if_pos hlt]
      have h2 : (l ++ [x])[l.length]? = some x := by simp
      rw [h1, ih]
      simp [List.filterMap_cons, h2]

theorem autoScript_guard_zero (pc : Nat) (a : OAct)
    (h : autoScript[pc]? = some a) (hg : a = OAct.guard) : pc = 0 := by
  by_contra hne
  have hlt : pc < autoScript.length := by
    by_contra hge
    rw [List.getElem?_eq_none (by omega)] at h
    exact Option.noConfusion h
  have hlt6 : pc < 6 := by simpa [autoScript] using hlt
  interval_cases pc <;> simp_all [autoScript]

theorem oact_tid (tid : Nat) (a : OAct) (flag : Bool) (pc len : Nat) :
    ((oact tid a flag pc len).2.2).1 = tid := by
  cases a with
  | guard =>
      unfold oact
      by_cases hf : flag
      · rw [if_pos hf]
      · rw [if_neg hf]
  | _ => rfl

theorem ostep_skip_inv (st : OState) (b : Bool)
    (h1 : (1, OEv.skipped) ∈ st.trace → autoScript.length ≤ st.pc1 ∧
      ∀ e, e ≠ OEv.skipped → (1, e) ∉ st.trace)
    (h2 : st.pc1 = 0 → ∀ e, (1, e) ∉ st.trace) :
    ((1, OEv.skipped) ∈ (ostep pumScript autoScript st b).trace →
      autoScript.length ≤ (ostep pumScript autoScript st b).pc1 ∧
      ∀ e, e ≠ OEv.skipped → (1, e) ∉ (ostep pumScript autoScript st b).trace) ∧
    ((ostep pumScript autoScript st b).pc1 = 0 →
      ∀ e, (1, e) ∉ (ostep pumScript autoScript st b).trace) := by
  cases b with
  | false =>
      unfold ostep
      rw [if_neg (by decide)]
      cases heq : pumScript[st.pc0]? with
      | none => exact ⟨h1, h2⟩
      | some a =>
          have htid := oact_tid 0 a st.flag st.pc0 pumScript.length
          simp only []
          constructor
          · intro hm
            rcases List.mem_append.mp hm with hm | hm
            · obtain ⟨ha, hb⟩ := h1 hm
              refine ⟨ha, ?_⟩
              intro e he hmem
              rcases List.mem_append.mp hmem with hx | hx
              · exact hb e he hx
              · rw [← List.mem_singleton.mp hx] at htid
                simp at htid
            · rw [← List.mem_singleton.mp hm] at htid
              simp at htid
          · intro hp e hmem
            rcases List.mem_append.mp hmem with hx | hx
            · exact h2 hp e hx
            · rw [← List.mem_singleton.mp hx] at htid
              simp at htid
  | true =>
      unfold ostep
      rw [if_pos rfl]
      cases heq : autoScript[st.pc1]? with
      | none => exact ⟨h1, h2⟩
      | some a =>
          by_cases hg : a = OAct.guard
          · have hpc : st.pc1 = 0 := autoScript_guard_zero _ _ heq hg
            subst hg
            unfold oact
            by_cases hf : st.flag
            · rw [if_pos hf]
              simp only []
              constructor
              · intro _
                refine ⟨le_refl _, ?_⟩
                intro e he hmem
                rcases List.mem_append.mp hmem with hx | hx
                · exact h2 hpc e hx
                · have h3 : e = OEv.skipped :=
                    congrArg Prod.snd (List.mem_singleton.mp hx)
                  exact he h3
              · intro hp
                rw [show autoScript.length = 6 from by decide] at hp
                exact Nat.noConfusion hp
            · rw [if_neg hf]
              simp only []
              constructor
              · intro hm
                exfalso
                rcases List.mem_append.mp hm with hx | hx
                · exact h2 hpc OEv.skipped hx
                · have h3 := (Prod.mk.injEq _ _ _ _).mp (List.mem_singleton.mp hx)
                  exact OEv.noConfusion h3.2
              · intro hp
                exact absurd hp (by omega)
          · have hev : (oact 1 a st.flag st.pc1 autoScript.length).2.2.2 ≠ OEv.skipped := by
              cases a with
              | guard => exact absurd rfl hg
              | setFlag c => intro hc; exact OEv.noConfusion hc
              | retrieve => intro hc; exact OEv.noConfusion hc
              | callModel => intro hc; exact OEv.noConfusion hc
              | save => intro hc; exact OEv.noConfusion hc
            have hpc1 : (oact 1 a st.flag st.pc1 autoScript.length).2.1 = st.pc1 + 1 := by
              cases a with
              | guard => exact absurd rfl hg
              | setFlag c => rfl
              | retrieve => rfl
              | callModel => rfl
              | save => rfl
            have htid := oact_tid 1 a st.flag st.pc1 autoScript.length
            simp only []
            constructor
            · intro hm
              exfalso
              rcases List.mem_append.mp hm with hx | hx
              · obtain ⟨ha, _⟩ := h1 hx
                rw [List.getElem?_eq_none (by simpa [autoScript] using ha)] at heq
                exact Option.noConfusion heq
              · have h3 := List.mem_singleton.mp hx
                have h4 : OEv.skipped = (oact 1 a st.flag st.pc1 autoScript.length).2.2.2 :=
                  congrArg Prod.snd h3
                exact hev h4.symm
            · intro hp
              rw [hpc1] at hp
              exact absurd hp (by omega)

theorem orun_skip_inv (sched : List Bool) :
    ((1, OEv.skipped) ∈ (orun pumScript autoScript sched).trace →
      autoScript.length ≤ (orun pumScript autoScript sched).pc1 ∧
      ∀ e, e ≠ OEv.skipped → (1, e) ∉ (orun pumScript autoScript sched).trace) ∧
    ((orun pumScript autoScript sched).pc1 = 0 →
      ∀ e, (1, e) ∉ (orun pumScript autoScript sched).trace) := by
  unfold orun
  generalize hst : ({ flag := false, pc0 := 0, pc1 := 0, trace := [] } : OState) = st
  have hbase : ((1, OEv.skipped) ∈ st.trace → autoScript.length ≤ st.pc1 ∧
      ∀ e, e ≠ OEv.skipped → (1, e) ∉ st.trace) ∧
      (st.pc1 = 0 → ∀ e, (1, e) ∉ st.trace) := by
    rw [← hst]
    constructor
    · intro hm; exact absurd hm (by simp)
    · intro _ e; simp
  clear hst
  induction sched generalizing st with
  | nil => exact hbase
  | cons b rest ih =>
      simp only [List.foldl_cons]
      exact ih _ (ostep_skip_inv st b hbase.1 hbase.2)

/-! ## Claim theorems -/

/-- C7: appending any sequence of serialized turns (user or assistant) to the
short-term buffer through the in-process cache backend keeps the stored list
at the most recent `max_size` entries in their original insertion order, and
its length never exceeds `max_size`. -/
theorem C7_short_term_buffer_bounded (max_size : Nat) (key : String)
    (entries : List String) (hmax : 1 ≤ max_size) :
    ((ShortTerm.add_all max_size Cache.empty key entries).find? key).getD [] =
      entries.drop (entries.length - max_size) ∧
    (((ShortTerm.add_all max_size Cache.empty key entries).find? key).getD []).length ≤
      max_size := by
  have h0 : ((Cache.empty.find? key).getD []) = lastN max_size [] := by
    simp [Cache.empty, Cache.find?, lastN]
  have h := add_all_stored max_size hmax key entries Cache.empty [] h0
  simp only [List.nil_append] at h
  exact ⟨h, by rw [h]; exact lastN_length_le _ _⟩

/-- Witness for C7: three appends at capacity 2 retain the last two entries. -/
theorem C7_short_term_buffer_bounded_witness :
    ((ShortTerm.add_all 2 Cache.empty ("k") ["a", "b", "c"]).find? ("k")).getD [] =
      ["a", "b", "c"].drop (["a", "b", "c"].length - 2) ∧
    (((ShortTerm.add_all 2 Cache.empty ("k") ["a", "b", "c"]).find? ("k")).getD []).length ≤ 2 :=
  C7_short_term_buffer_bounded 2 ("k") ["a", "b", "c"] (by decide)

/-- C9: the in-process store's range-read is *not* Redis-LRANGE compatible,
contradicting its own docstring: on the stored list `["a","b","c"]` the call
`get_messages(key, 0, -5)` resolves the end bound to the negative slice index
`-2`, so Python slicing counts it from the *end* of the list and returns
`["a","b"]`, where Redis `LRANGE key 0 -5` (end before the start of the
list) returns the empty list.  `trim` shares `_resolve_range` and keeps
`["a","b"]` instead of emptying the list. -/
theorem C9_range_read_not_redis_compatible :
    Cache.get_messages [("k", ["a", "b", "c"])] "k" 0 (-5) = ["a", "b"] ∧
    redisLrange ["a", "b", "c"] 0 (-5) = ([] : List String) ∧
    Cache.get_messages [("k", ["a", "b", "c"])] "k" 0 (-5) ≠
      redisLrange ["a", "b", "c"] 0 (-5) ∧
    Cache.trim [("k", ["a", "b", "c"])] "k" 0 (-5) = [("k", ["a", "b"])] := by
  decide

/-- C10: when the language-model call raises, `summarize_conversation`
returns the deterministic fallback string counting the user and assistant
entries of the message list, instead of propagating the failure. -/
theorem C10_summarize_total_on_llm_failure
    (generate : String → Except Unit String) (messages : List Turn)
    (h : generate (format_messages messages) = Except.error ()) :
    summarize_conversation generate messages =
      "Conversation with " ++ toString (count_user messages) ++
        " user messages and " ++ toString (count_chino messages) ++
        " assistant responses." := by
  unfold summarize_conversation
  rw [h]
  rfl

/-- Witness for C10 at a concrete failing model and a three-entry
conversation. -/
theorem C10_summarize_total_on_llm_failure_witness :
    summarize_conversation (fun _ => Except.error ())
        [Turn.user ("hi") "normal", Turn.chino ("hello") "happy", Turn.user ("bye") "sad"] =
      "Conversation with " ++ toString (count_user
          [Turn.user ("hi") "normal", Turn.chino ("hello") "happy", Turn.user ("bye") "sad"]) ++
        " user messages and " ++ toString (count_chino
          [Turn.user ("hi") "normal", Turn.chino ("hello") "happy", Turn.user ("bye") "sad"]) ++
        " assistant responses." :=
  C10_summarize_total_on_llm_failure (fun _ => Except.error ()) _ rfl

/-- C2: at a buffer exactly at threshold 2, with a working summarizer and a
working long-term store, `_check_and_compress` persists one Summary
referencing the 2 compressed turns and leaves the buffer **untrimmed**: the
trim statement accesses the nonexistent attribute
`ShortTermMemory.storage_key` and raises `AttributeError`, which the handler
swallows — a Summary is persisted without the corresponding trim on every
run. -/
theorem C2_compression_persists_summary_without_trim :
    (check_and_compress (fun _ => Except.error ()) 2 true
        { buffer := [Turn.user ("a") "normal", Turn.chino ("b") "normal"], summaries := [] }).buffer =
      [Turn.user ("a") "normal", Turn.chino ("b") "normal"] ∧
    (check_and_compress (fun _ => Except.error ()) 2 true
        { buffer := [Turn.user ("a") "normal", Turn.chino ("b") "normal"], summaries := [] }).summaries.map
        SummaryRow.message_count = [2] := by
  decide

/-- C6: inside one `publish` call, every merged handler is invoked through
`_safe_call` no matter which handlers fail (`beh h = false` models handler
`h` raising): the invocation list always covers all merged handlers in
order, each failure is contained (recorded, not propagated), and the
returned count is the full handler count, failed handlers included. -/
theorem C6_handler_isolation (subs : Subscribers) (history : List HEntry)
    (beh : Nat → Bool) (event : String) (timestamp : Nat) (data_type : String) :
    (publish { subs := subs, history := history } beh event timestamp data_type).2.invoked =
      (get_handlers subs event).map (fun s => (s.id, beh s.id)) ∧
    (publish { subs := subs, history := history } beh event timestamp data_type).2.count =
      (get_handlers subs event).length := by
  unfold publish
  cases h : (get_handlers subs event) with
  | nil => simp [h]
  | cons a l => simp [h]

/-- C1 as amended: the orchestrator owns no lock; the only serialization is
`auto_trigger_conversation`'s `is_processing` check, and it *drops*: under
every cooperative schedule of a user turn concurrent with an idle
auto-trigger, once the auto-trigger's guard observes a turn in flight (the
`skipped` event), the auto-trigger invocation contributes nothing further —
no context-gathering, no model call, no save, no flag write ever appears
for it in the trace.  Concurrent input is skipped, not queued. -/
theorem C1_amended_auto_trigger_dropped (sched : List Bool)
    (h : (1, OEv.skipped) ∈ (orun pumScript autoScript sched).trace) :
    ∀ e, e ≠ OEv.skipped → (1, e) ∉ (orun pumScript autoScript sched).trace :=
  ((orun_skip_inv sched).1 h).2

/-- Witness for C1 as amended: under the schedule that starts a user turn
and then runs the idle auto-trigger, the auto-trigger is skipped and never
gathers context. -/
theorem C1_amended_auto_trigger_dropped_witness :
    (1, OEv.skipped) ∈ (orun pumScript autoScript [false, true]).trace ∧
    (1, OEv.beganRetrieve) ∉ (orun pumScript autoScript [false, true]).trace :=
  ⟨by decide,
   C1_amended_auto_trigger_dropped [false, true] (by decide) OEv.beganRetrieve (by decide)⟩

/-- C1 fails as stated: there is no turn lock.  Two concurrent
`process_user_message` invocations may interleave freely — under the
schedule `[0,0,1,1,0,0,0,1,1,1]` the second invocation's context-gathering
(trace position 3) begins before the first invocation's save (trace
position 5) — and an idle auto-trigger arriving while a turn is in flight is
*dropped* (its guard returns `[]` immediately; it runs to completion having
never gathered context), not queued behind any lock. -/
theorem C1_counterexample_no_mutual_exclusion :
    (orun pumScript pumScript
        [false, false, true, true, false, false, false, true, true, true]).trace =
      [(0, OEv.setI true), (0, OEv.beganRetrieve), (1, OEv.setI true),
       (1, OEv.beganRetrieve), (0, OEv.calledModel), (0, OEv.saved),
       (0, OEv.setI false), (1, OEv.calledModel), (1, OEv.saved),
       (1, OEv.setI false)] ∧
    (1, OEv.beganRetrieve) ∈ ((orun pumScript pumScript
        [false, false, true, true, false, false, false, true, true, true]).trace.take 5) ∧
    (0, OEv.saved) ∉ ((orun pumScript pumScript
        [false, false, true, true, false, false, false, true, true, true]).trace.take 5) ∧
    (orun pumScript autoScript
        [false, true, false, false, false, false, true, true, true, true, true]).pc1 =
      autoScript.length ∧
    (1, OEv.beganRetrieve) ∉ (orun pumScript autoScript
        [false, true, false, false, false, false, true, true, true, true, true]).trace := by
  decide

/-- C3 as amended: route an N-sentence reply (N ≥ 1) across K ≥ 1 slots and
run any interleaving of per-slot dequeues with completion marks whose marked
indices form a permutation of `[0,N)`, *provided every mark is accepted*
(returns `True`, as in the documented dequeue-then-mark usage).  Then
`build_ordered_response()` yields the sentences in original input order, the
all-completed signal is set at the end, and it is still unset after any
proper prefix containing fewer than N marks — it fires exactly at the mark
that completes the set. -/
theorem C3_amended_ordered_rebuild (K : Nat) (l : List α) (ops : List ROp)
    (hK : 1 ≤ K) (hN : 1 ≤ l.length)
    (hperm : (marksOf ops).Perm (List.range l.length))
    (hok : allMarksOk (route K l) ops = true) :
    build_ordered_response (runOps (route K l) ops) = l ∧
    (runOps (route K l) ops).finished = true ∧
    (∀ p q, ops = p ++ q → (marksOf p).length < l.length →
      (runOps (route K l) p).finished = false) := by
  have hsent : (runOps (route K l) ops).sentences = l := by
    rw [runOps_sentences, route_sentences_eq]
  obtain ⟨hnd, hb, hfin⟩ := runOps_rinv ops (route K l) (route_rinv K l)
  have hmem0 : ∀ j, j ∈ (runOps (route K l) ops).completed ↔ j ∈ marksOf ops := by
    intro j
    have h := runOps_mem ops (route K l) hok j
    rw [route_completed] at h
    simpa using h
  have hmemN : ∀ j, j ∈ (runOps (route K l) ops).completed ↔
      j ∈ List.range l.length := by
    intro j
    rw [hmem0 j]
    exact hperm.mem_iff
  have hpermc : (runOps (route K l) ops).completed.Perm (List.range l.length) := by
    apply List.perm_of_nodup_nodup_toFinset_eq hnd (List.nodup_range l.length)
    ext j
    simp only [List.mem_toFinset]
    exact hmemN j
  have hsorted : List.insertionSort (· ≤ ·) (runOps (route K l) ops).completed =
      List.range l.length := by
    exact List.eq_of_perm_of_sorted ((List.perm_insertionSort _ _).trans hpermc)
      (List.sorted_insertionSort _ _) (List.sorted_le_range _)
  refine ⟨?_, ?_, ?_⟩
  · unfold build_ordered_response
    rw [hsorted]
    simp only [hsent]
    exact filterMap_range_get l
  · apply hfin.mpr
    constructor
    · rw [hsent]
      omega
    · rw [hpermc.length_eq, List.length_range, hsent]
  · intro p q hpq hlen
    have hokp : allMarksOk (route K l) p = true := by
      rw [hpq, allMarksOk_append] at hok
      have := (Bool.and_eq_true _ _) ▸ hok
      exact this.1
    obtain ⟨hndp, hbp, hfinp⟩ := runOps_rinv p (route K l) (route_rinv K l)
    have hmemp : ∀ j, j ∈ (runOps (route K l) p).completed ↔ j ∈ marksOf p := by
      intro j
      have h := runOps_mem p (route K l) hokp j
      rw [route_completed] at h
      simpa using h
    have hndops : (marksOf ops).Nodup := hperm.symm.nodup (List.nodup_range l.length)
    have hndmp : (marksOf p).Nodup := by
      have hsub : (marksOf p).Sublist (marksOf ops) := by
        rw [hpq, marksOf_append]
        exact (List.sublist_append_left _ _)
      exact List.Nodup.sublist hsub hndops
    have hlenp : (runOps (route K l) p).completed.length = (marksOf p).length := by
      have hpp : (runOps (route K l) p).completed.Perm (marksOf p) := by
        apply List.perm_of_nodup_nodup_toFinset_eq hndp hndmp
        ext j
        simp only [List.mem_toFinset]
        exact hmemp j
      exact hpp.length_eq
    have hsp : (runOps (route K l) p).sentences = l := by
      rw [runOps_sentences, route_sentences_eq]
    cases hcase : (runOps (route K l) p).finished with
    | false => rfl
    | true =>
        obtain ⟨_, hl2⟩ := hfinp.mp hcase
        rw [hlenp, hsp] at hl2
        omega

/-- Witness for C3 as amended: three sentences on two slots, marked in the
permutation `2, 0, 1` with a dequeue interleaved, rebuild in original
order, and the finished event fires only at the last mark. -/
theorem C3_amended_ordered_rebuild_witness :
    build_ordered_response (runOps (route 2 ["a", "b", "c"])
        [ROp.mark 2, ROp.deq 0, ROp.mark 0, ROp.mark 1]) = ["a", "b", "c"] ∧
    (runOps (route 2 ["a", "b", "c"])
        [ROp.mark 2, ROp.deq 0, ROp.mark 0, ROp.mark 1]).finished = true ∧
    (∀ p q, [ROp.mark 2, ROp.deq 0, ROp.mark 0, ROp.mark 1] = p ++ q →
      (marksOf p).length < (["a", "b", "c"] : List String).length →
      (runOps (route 2 ["a", "b", "c"]) p).finished = false) :=
  C3_amended_ordered_rebuild 2 ["a", "b", "c"]
    [ROp.mark 2, ROp.deq 0, ROp.mark 0, ROp.mark 1]
    (by decide) (by decide) (by decide) (by decide)

/-- C3 fails as stated: with one slot and the reply `["a","b"]`, dequeue the
slot once (sentence 0 becomes the slot's current), then mark completions in
the permutation `1, 0`.  Marking sentence 1 calls `complete_current`, which
stamps the slot's current sentence 0 as `COMPLETED` without recording it, so
the later `mark_completed 0` is rejected: `build_ordered_response` returns
`["b"]` instead of the original order, and the all-completed signal never
fires even though every index of `[0,2)` was marked. -/
theorem C3_counterexample_ordering_lost :
    marksOf [ROp.deq 0, ROp.mark 1, ROp.mark 0] = [1, 0] ∧
    build_ordered_response
        (runOps (route 1 ["a", "b"]) [ROp.deq 0, ROp.mark 1, ROp.mark 0]) = ["b"] ∧
    build_ordered_response
        (runOps (route 1 ["a", "b"]) [ROp.deq 0, ROp.mark 1, ROp.mark 0]) ≠ ["a", "b"] ∧
    (runOps (route 1 ["a", "b"]) [ROp.deq 0, ROp.mark 1, ROp.mark 0]).finished = false := by
  decide

/-- C4 as amended: one publish invokes the merged event-specific and wildcard
handlers arranged into priority bands — every HIGH handler before any NORMAL
or LOW handler and NORMAL before LOW — and inside one band the handlers of
each registry keep their own registration order, with the event-specific
handlers of the band placed before the wildcard handlers of the band
(registration order across the two registries is not preserved). -/
theorem C4_amended_priority_bands (regs : List (String × Sub)) (event : String) :
    get_handlers (buildBus regs) event =
      prioFilter Priority.high (regsFor regs event) ++
      prioFilter Priority.high (regsFor regs ("*")) ++
      prioFilter Priority.normal (regsFor regs event) ++
      prioFilter Priority.normal (regsFor regs ("*")) ++
      prioFilter Priority.low (regsFor regs event) ++
      prioFilter Priority.low (regsFor regs ("*")) := by
  unfold get_handlers
  rw [buildBus_get regs event, buildBus_get regs ("*")]
  by_cases hw : bucket (regsFor regs ("*")) = []
  · have h0 : ∀ p, prioFilter p (regsFor regs ("*")) = [] := by
      intro p
      have := congrArg (prioFilter p) hw
      rw [prioFilter_bucket] at this
      simpa [prioFilter] using this
    rw [hw]
    simp only [List.isEmpty_nil, if_pos rfl]
    rw [h0, h0, h0, bucket_def]
    simp [List.append_assoc]
  · rw [if_neg (by simpa [List.isEmpty_iff] using hw)]
    rw [pySort_eq_bucket, bucket_absorb]
    have hfil : ∀ p, prioFilter p (regsFor regs event ++ bucket (regsFor regs ("*"))) =
        prioFilter p (regsFor regs event) ++ prioFilter p (regsFor regs ("*")) := by
      intro p
      rw [prioFilter_append, prioFilter_bucket]
    rw [bucket_def, hfil, hfil, hfil]
    simp [List.append_assoc]

/-- C4 fails as stated: register a wildcard NORMAL handler (id 1) first and
an event-specific NORMAL handler (id 2) second.  `_get_handlers` extends the
event list with the wildcard list before the stable sort, so the merged
order is `[2, 1]` — not the registration order `[1, 2]` — although both
handlers have equal priority. -/
theorem C4_counterexample_registration_order_across_registries :
    (get_handlers
        (buildBus [("*", { priority := Priority.normal, id := 1 }),
                   ("evt", { priority := Priority.normal, id := 2 })]) "evt").map Sub.id =
      [2, 1] ∧
    ([2, 1] : List Nat) ≠ [1, 2] := by
  decide

/-- C5 as amended: `mark_completed` returns `False` and leaves the router
unchanged for an index outside the routed reply, and for a sentence whose
status is already `COMPLETED` (the state a sentence reaches when it was its
slot's current sentence at its first completion, as in the documented
dequeue-then-mark usage); and a repeated mark of an index already in the
completed set never changes that set — though it is not always rejected. -/
theorem C5_amended_rejection_rules (st : RouterState α) (i : Nat) :
    (st.sentences.length ≤ i → mark_completed st i = (st, false)) ∧
    (st.status.getD i SStatus.pending = SStatus.completed →
      mark_completed st i = (st, false)) ∧
    (i ∈ st.completed → (mark_completed st i).1.completed = st.completed) := by
  refine ⟨?_, ?_, ?_⟩
  · intro h
    unfold mark_completed
    rw [if_neg (by omega)]
  · intro h
    unfold mark_completed
    by_cases h1 : i < st.sentences.length
    · rw [if_pos h1, if_pos h]
    · rw [if_neg h1]
  · intro h
    unfold mark_completed
    by_cases h1 : i < st.sentences.length
    · rw [if_pos h1]
      by_cases h2 : st.status.getD i SStatus.pending = SStatus.completed
      · rw [if_pos h2]
      · rw [if_neg h2]
        have hc : (complete_current st (i % st.num_slots)).completed = st.completed := by
          unfold complete_current
          cases st.currents.getD (i % st.num_slots) none <;> rfl
        simp [hc, h]
    · rw [if_neg h1]

/-- Witness for C5: after completing the single routed sentence, an unknown
index is rejected, a properly-stamped double completion is rejected, and a
repeat mark does not grow the completed set. -/
theorem C5_amended_rejection_rules_witness :
    mark_completed (mark_completed (route 1 ["a"]) 0).1 5 =
      ((mark_completed (route 1 ["a"]) 0).1, false) ∧
    mark_completed (runOps (route 1 ["a"]) [ROp.deq 0, ROp.mark 0]) 0 =
      ((runOps (route 1 ["a"]) [ROp.deq 0, ROp.mark 0]), false) ∧
    (mark_completed (mark_completed (route 1 ["a"]) 0).1 0).1.completed =
      (mark_completed (route 1 ["a"]) 0).1.completed :=
  ⟨(C5_amended_rejection_rules (mark_completed (route 1 ["a"]) 0).1 5).1 (by decide),
   (C5_amended_rejection_rules (runOps (route 1 ["a"]) [ROp.deq 0, ROp.mark 0]) 0).2.1
     (by decide),
   (C5_amended_rejection_rules (mark_completed (route 1 ["a"]) 0).1 0).2.2 (by decide)⟩

/-- C5 fails as stated: route one sentence and mark index 0 completed twice
without any dequeue.  The slot has no current sentence, so
`complete_current` never stamps the sentence's status, and the *second*
`mark_completed 0` — a double completion — is accepted with `True` again. -/
theorem C5_counterexample_double_completion_accepted :
    (mark_completed (route 1 ["a"]) 0).2 = true ∧
    0 ∈ (mark_completed (route 1 ["a"]) 0).1.completed ∧
    (mark_completed (mark_completed (route 1 ["a"]) 0).1 0).2 = true := by
  decide

/-- C8 as amended: every `publish` call that finds at least one merged
handler records exactly one (event, timestamp, payload-kind) tuple — a
publish with no matching handlers records nothing — the history always
holds the at most `_max_history = 100` most recent recorded tuples, and
`get_history(limit)` with `limit ≥ 1` returns the most recent `limit` of
them. -/
theorem C8_amended_history_ring (regs : List (String × Sub)) (beh : Nat → Bool)
    (pubs : List (String × Nat × String)) (limit : Nat) (hl : 1 ≤ limit) :
    (publishSeq { subs := buildBus regs, history := [] } beh pubs).history =
      lastN max_history
        ((pubs.filter (fun p => !(get_handlers (buildBus regs) p.1).isEmpty)).map
          (fun p => { event := p.1, timestamp := p.2.1, data_type := p.2.2 })) ∧
    (publishSeq { subs := buildBus regs, history := [] } beh pubs).history.length ≤
      max_history ∧
    get_history (publishSeq { subs := buildBus regs, history := [] } beh pubs).history
        limit =
      lastN limit (publishSeq { subs := buildBus regs, history := [] } beh pubs).history := by
  have h0 : ({ subs := buildBus regs, history := [] } : BusState).history =
      lastN max_history [] := by
    simp [lastN]
  obtain ⟨h1, _⟩ := publishSeq_history beh pubs { subs := buildBus regs, history := [] } [] h0
  simp only [List.nil_append] at h1
  refine ⟨h1, ?_, ?_⟩
  · rw [h1]
    exact lastN_length_le _ _
  · unfold get_history
    rw [if_neg (by omega)]

/-- Witness for C8 at one matched publish, one unmatched publish, and
`limit = 1`. -/
theorem C8_amended_history_ring_witness :
    (publishSeq ⟨buildBus [("e", ⟨Priority.normal, 7⟩)], []⟩ (fun _ => true)
        [("e", 1, "dict"), ("x", 2, "str")]).history =
      lastN max_history
        (([("e", (1 : Nat), "dict"), ("x", 2, "str")].filter
            (fun p => !(get_handlers (buildBus [("e", ⟨Priority.normal, 7⟩)]) p.1).isEmpty)).map
          (fun p => ⟨p.1, p.2.1, p.2.2⟩)) ∧
    (publishSeq ⟨buildBus [("e", ⟨Priority.normal, 7⟩)], []⟩ (fun _ => true)
        [("e", 1, "dict"), ("x", 2, "str")]).history.length ≤ max_history ∧
    get_history (publishSeq ⟨buildBus [("e", ⟨Priority.normal, 7⟩)], []⟩ (fun _ => true)
        [("e", 1, "dict"), ("x", 2, "str")]).history 1 =
      lastN 1 (publishSeq ⟨buildBus [("e", ⟨Priority.normal, 7⟩)], []⟩ (fun _ => true)
        [("e", 1, "dict"), ("x", 2, "str")]).history :=
  C8_amended_history_ring [("e", ⟨Priority.normal, 7⟩)] (fun _ => true)
    [("e", 1, "dict"), ("x", 2, "str")] 1 (by decide)

/-- C8 fails as stated: a `publish` on a bus with no matching handlers
returns 0 *before* `_record_history` runs, so no (event, timestamp,
payload-kind) tuple is recorded for that call. -/
theorem C8_counterexample_no_handler_publish_unrecorded :
    ((publish { subs := [], history := [] } (fun _ => true) "evt" 5 ("dict")).1.history =
      ([] : List HEntry)) ∧
    (publish { subs := [], history := [] } (fun _ => true) "evt" 5 ("dict")).2.count = 0 := by
  decide

end ChinoKafuu
